import Mathlib

/-!
Verification of the `heroku-tools` glue layer (`heroku_tools/git.py` and
`heroku_tools/heroku.py`).

The Python code is shallowly embedded: Python strings become `String`
(reasoning happens on their `List Char` data), Python `str.split(sep)`,
`str.strip`, `str.startswith` and slicing are modelled character-exactly,
a spawned process result becomes an explicit `ProcessResult` record, and a
Python function that may raise becomes `Except String _` (or `Option _`
where the only failure is an `IndexError`).
-/

/-- Python whitespace characters, as stripped by `str.strip()` /
`lstrip()` / `rstrip()` (ASCII subset; the repository only ever strips
process output). -/
def pyWS (c : Char) : Bool :=
  c == ' ' || c == '\t' || c == '\n' || c == '\r' || c == '\x0b' || c == '\x0c'

/-- `str.lstrip()` on the character list. -/
def pyLStrip (l : List Char) : List Char := l.dropWhile pyWS

/-- `str.rstrip()` on the character list. -/
def pyRStrip (l : List Char) : List Char := (l.reverse.dropWhile pyWS).reverse

/-- `str.lstrip().rstrip()` as used by `get_commits` / `get_files`. -/
def pyStrip (l : List Char) : List Char := pyRStrip (pyLStrip l)

/-- Python `str.split(sep)` for a one-character separator: splits at every
occurrence of `sep`, keeping empty pieces, and yields `[""]` on the empty
string. -/
def pySplit (sep : Char) : List Char → List (List Char)
  | [] => [[]]
  | c :: rest =>
    match pySplit sep rest with
    | [] => [[]]
    | g :: gs => if c == sep then [] :: g :: gs else (c :: g) :: gs

/-- Joining with a one-character separator; the left inverse of `pySplit`. -/
def joinLines (sep : Char) : List (List Char) → List Char
  | [] => []
  | [l] => l
  | l :: ls => l ++ sep :: joinLines sep ls

/-- `description.split(' ')` lifted back to `String`s. -/
def pySplitWords (s : String) : List String := (pySplit ' ' s.data).map String.mk

/-- Python `s.startswith(p)`. -/
def pyStartsWith (s p : String) : Bool := p.data.isPrefixOf s.data

/-- The result of one `envoy.run` process invocation: exit status (a Python
`int`, negative when the process dies on a signal), captured stdout and
stderr. -/
structure ProcessResult where
  status_code : Int
  std_out : String
  std_err : String
  deriving DecidableEq, Repr

/-- `GIT_DIR = os.path.join(WORK_DIR, '.git')`. -/
def GIT_DIR (work_dir : String) : String := work_dir ++ "/.git"

/-- `"git --git-dir=%s --work-tree=%s " % (GIT_DIR, WORK_DIR)`. -/
def gitCmdPreamble (work_dir : String) : String :=
  "git --git-dir=" ++ GIT_DIR work_dir ++ " --work-tree=" ++ work_dir ++ " "

/-- `git.run_git_cmd`: prefixes the command, runs it, raises when the exit
status is `> 0` (message carrying the full command and stderr), otherwise
returns the captured stdout unchanged. The process outcome is passed in as
`r`. -/
def run_git_cmd (work_dir command : String) (r : ProcessResult) : Except String String :=
  let cmd := gitCmdPreamble work_dir ++ command
  if r.status_code > 0 then
    Except.error ("Error running git command \x27" ++ cmd ++ "\x27: " ++ r.std_err)
  else
    Except.ok r.std_out

/-- `heroku.run_cmd` (embedded as `run_heroku_cmd`): builds `heroku {command} --app {application}`, raises
when the exit status is `> 0`, otherwise returns stdout. -/
def run_heroku_cmd (application command : String) (r : ProcessResult) : Except String String :=
  let cmd := "heroku " ++ command ++ " --app " ++ application
  if r.status_code > 0 then
    Except.error ("Error running Heroku command \x27" ++ cmd ++ "\x27: " ++ r.std_err)
  else
    Except.ok r.std_out

/-- `git.get_remote_url`. -/
def get_remote_url (app_name : String) : String := "git@heroku.com:" ++ app_name ++ ".git"

/-- `git.get_current_branch`: returns `run_git_cmd` output verbatim. -/
def get_current_branch (work_dir : String) (r : ProcessResult) : Except String String :=
  run_git_cmd work_dir "rev-parse --abbrev-ref HEAD" r

/-- `git.get_branch_head`: `run_git_cmd("rev-parse %s" % branch)[:7]`. -/
def get_branch_head (work_dir branch : String) (r : ProcessResult) : Except String String :=
  (run_git_cmd work_dir ("rev-parse " ++ branch) r).map (fun s => s.take 7)

/-- `git.get_editor`: `run_git_cmd('config --get core.editor') or
SETTINGS.get('editor')`, raising when the combined value is `None`.
`git_editor` is the (successful) git-config output, `settings_editor` the
optional settings entry (`none` when the key is absent). Python `or`
returns its left operand exactly when it is a non-empty string. -/
def get_editor (git_editor : String) (settings_editor : Option String) : Except String String :=
  match (if git_editor ≠ "" then some git_editor else settings_editor) with
  | some e => Except.ok e
  | none => Except.error "No editor configured in git config, $EDITOR or $VISUAL."

/-- `git.get_commits` output parsing: strip the raw log, split on newlines,
keep non-empty lines, and map each line `l` to `(l[:7], l[8:])`. -/
def get_commits_parse (raw : String) : List (String × String) :=
  ((pySplit '\n' (pyStrip raw.data)).filter (fun l => !l.isEmpty)).map
    (fun l => (String.mk (l.take 7), String.mk (l.drop 8)))

/-- String `a ≤ b` as a Bool comparison for `List.mergeSort`, matching
Python's lexicographic (code-point) string order. -/
def strLeb (a b : String) : Bool := decide (a ≤ b)

/-- `git.get_files` output parsing: strip, split on newlines, `list.sort()`,
then drop empty strings. -/
def get_files_parse (raw : String) : List String :=
  let files := (pySplit '\n' (pyStrip raw.data)).map String.mk
  (files.mergeSort strLeb).filter (fun f => f ≠ "")

/-- The git subcommand built by `git.apply_tag`:
`"tag -a %s -m  '%s' %s" % (tag, message, commit)` (note the two spaces
after `-m` in the source format string). -/
def apply_tag_command (c tag message : String) : String :=
  "tag -a " ++ tag ++ " -m  \x27" ++ message ++ "\x27 " ++ c

/-- `git.apply_tag`: runs the built tag command through `run_git_cmd`
(returning no value). -/
def apply_tag (work_dir c tag message : String) (r : ProcessResult) : Except String Unit :=
  (run_git_cmd work_dir (apply_tag_command c tag message) r).map (fun _ => ())

/-- The raw JSON object of one release as consumed by `heroku.py`: the only
field the verified operations inspect is `description`, `none` when the
key is absent. -/
structure RawRelease where
  description : Option String
  deriving DecidableEq, Repr

/-- `release.get('description', '')`. -/
def pyGetDesc (r : RawRelease) : String := r.description.getD ""

/-- `"%s" % release.get('description')`: Python renders the `None` default
as the string `"None"`. -/
def pyReprDesc (r : RawRelease) : String :=
  match r.description with
  | some s => s
  | none => "None"

/-- `description.split(' ')[0]` (the split list is never empty, so the
index is safe). -/
def firstWord (s : String) : String := (pySplitWords s).headD ""

/-- The scan condition of `get_latest_deployment`:
`description.split(' ')[0] in (u'Promote', u'Deploy')`. -/
def isDeployMatch (r : RawRelease) : Bool :=
  firstWord (pyGetDesc r) == "Promote" || firstWord (pyGetDesc r) == "Deploy"

/-- The `click.echo` diagnostic emitted for a skipped release. -/
def ignoreMsg (r : RawRelease) : String := "Ignoring release: " ++ pyReprDesc r

/-- `HerokuRelease.get_latest_deployment` over an already-fetched release
list: scan in order, return the first match, echo a diagnostic per skipped
entry; `none` models the `HerokuError` raised when nothing matches. The
first component collects the echoed diagnostics. -/
def get_latest_deployment : List RawRelease → List String × Option RawRelease
  | [] => ([], none)
  | r :: rest =>
    if isDeployMatch r then ([], some r)
    else
      let p := get_latest_deployment rest
      (ignoreMsg r :: p.1, p.2)

/-- `HerokuRelease.commit`: parse the description; `none` models the
`IndexError` Python raises when the split list is too short for the
indexed token. -/
def commit (description : String) : Option String :=
  if pyStartsWith description "Promote" then (pySplitWords description)[3]?
  else if pyStartsWith description "Deploy" then (pySplitWords description)[1]?
  else some "invalid"

/-! ## Shared helper lemmas -/

/-- `sub` occurs verbatim inside `s`. -/
def containsStr (s sub : String) : Prop := ∃ a b, s = a ++ sub ++ b

/-- A well-formed `git log --oneline` line: an abbreviated hash (7
characters), a separating space and a message, so at least 8 characters,
no embedded newline, and no leading or trailing Python whitespace (the
first character is a hash digit and git does not emit trailing blanks). -/
def wfLine (l : List Char) : Bool :=
  decide (8 ≤ l.length) && decide ('\n' ∉ l) &&
    !(pyWS (l.headD ' ')) && !(pyWS (l.getLastD ' '))

theorem pySplit_ne_nil (sep : Char) (l : List Char) : pySplit sep l ≠ [] := by
  cases l with
  | nil => simp [pySplit]
  | cons c rest =>
    simp only [pySplit]
    cases pySplit sep rest with
    | nil => simp
    | cons g gs => dsimp; split <;> simp

theorem joinLines_cons_cons (sep c : Char) (g : List Char) (gs : List (List Char)) :
    joinLines sep ((c :: g) :: gs) = c :: joinLines sep (g :: gs) := by
  cases gs <;> simp [joinLines]

theorem pySplit_reconstruct (sep : Char) (l : List Char) :
    joinLines sep (pySplit sep l) = l := by
  induction l with
  | nil => rfl
  | cons c rest ih =>
    simp only [pySplit]
    cases hs : pySplit sep rest with
    | nil => exact absurd hs (pySplit_ne_nil sep rest)
    | cons g gs =>
      rw [hs] at ih
      by_cases hc : c = sep
      · subst hc
        simp [joinLines, ih]
      · have hb : (c == sep) = false := by simp [hc]
        dsimp only
        simp [hb, joinLines_cons_cons, ih]

theorem pySplit_head_prefix (sep : Char) (l g : List Char) (gs : List (List Char))
    (h : pySplit sep l = g :: gs) : ∃ rest, l = g ++ rest := by
  have hrec := pySplit_reconstruct sep l
  rw [h] at hrec
  cases gs with
  | nil => exact ⟨[], by simpa [joinLines] using hrec.symm⟩
  | cons g2 gs2 => exact ⟨sep :: joinLines sep (g2 :: gs2), by simpa [joinLines] using hrec.symm⟩

theorem firstWord_isPrefix (d w : String) (h : firstWord d = w) :
    pyStartsWith d w = true := by
  unfold firstWord pySplitWords at h
  unfold pyStartsWith
  cases hs : pySplit ' ' d.data with
  | nil => exact absurd hs (pySplit_ne_nil _ _)
  | cons g gs =>
    rw [hs] at h
    simp only [List.map_cons, List.headD_cons] at h
    obtain ⟨rest, hrest⟩ := pySplit_head_prefix ' ' d.data g gs hs
    have hw : w.data = g := by rw [← h]
    rw [List.isPrefixOf_iff_prefix, hrest, hw]
    exact List.prefix_append g rest

theorem isDeployMatch_descr (r : RawRelease) (h : isDeployMatch r = true) :
    ∃ d, r.description = some d ∧ (firstWord d = "Promote" ∨ firstWord d = "Deploy") := by
  cases hd : r.description with
  | none =>
    exfalso
    have hg : pyGetDesc r = "" := by simp [pyGetDesc, hd]
    rw [isDeployMatch, hg] at h
    exact absurd h (by decide)
  | some d =>
    refine ⟨d, rfl, ?_⟩
    have hg : pyGetDesc r = d := by simp [pyGetDesc, hd]
    rw [isDeployMatch, hg] at h
    simpa using h

/-! ## Claim theorems -/

/-- C1 (counterexample): the claim says the `commit` accessor is total and
never raises for every description, but the description `"Promote"` starts
with `"Promote"` and Python raises `IndexError` on
`"Promote".split(' ')[3]` (modelled by `none`). -/
theorem commit_totality_cex :
    pyStartsWith "Promote" "Promote" = true ∧ commit "Promote" = none :=
  ⟨rfl, rfl⟩

/-- C1 (amended): if the description starts with `"Promote"` the accessor
returns the 4th space-separated token when there are at least 4 tokens and
raises `IndexError` otherwise; if it starts with `"Deploy"` (and not
`"Promote"`) the same with the 2nd token; any other prefix yields the
sentinel `"invalid"` without raising. -/
theorem commit_amended (d : String) :
    (pyStartsWith d "Promote" = true →
      commit d = (pySplitWords d)[3]? ∧
      (4 ≤ (pySplitWords d).length → ∃ t, commit d = some t) ∧
      ((pySplitWords d).length < 4 → commit d = none)) ∧
    (pyStartsWith d "Promote" = false → pyStartsWith d "Deploy" = true →
      commit d = (pySplitWords d)[1]? ∧
      (2 ≤ (pySplitWords d).length → ∃ t, commit d = some t) ∧
      ((pySplitWords d).length < 2 → commit d = none)) ∧
    (pyStartsWith d "Promote" = false → pyStartsWith d "Deploy" = false →
      commit d = some "invalid") := by
  refine ⟨fun hP => ?_, fun hP hD => ?_, fun hP hD => ?_⟩
  · have hc : commit d = (pySplitWords d)[3]? := by simp [commit, hP]
    refine ⟨hc, fun hlen => ?_, fun hlen => ?_⟩
    · exact ⟨(pySplitWords d)[3], by rw [hc]; exact List.getElem?_eq_getElem (by omega)⟩
    · rw [hc]; exact List.getElem?_eq_none (by omega)
  · have hc : commit d = (pySplitWords d)[1]? := by simp [commit, hP, hD]
    refine ⟨hc, fun hlen => ?_, fun hlen => ?_⟩
    · exact ⟨(pySplitWords d)[1], by rw [hc]; exact List.getElem?_eq_getElem (by omega)⟩
    · rw [hc]; exact List.getElem?_eq_none (by omega)
  · simp [commit, hP, hD]

/-- C1 (witness): the amended theorem applied to the three spec examples. -/
theorem commit_amended_witness :
    commit "Promote my-app v123 75c70c5" = some "75c70c5" ∧
    commit "Deploy 75c70c5" = some "75c70c5" ∧
    commit "Rollback to v100" = some "invalid" :=
  ⟨(((commit_amended "Promote my-app v123 75c70c5").1 rfl).1).trans rfl,
   (((commit_amended "Deploy 75c70c5").2.1 rfl rfl).1).trans rfl,
   (commit_amended "Rollback to v100").2.2 rfl rfl⟩

/-- C2 (counterexample): the claim says an error is raised iff the exit
status is non-zero, but both runners test `status_code > 0`, so a negative
status (a signal-killed process) returns stdout without raising. -/
theorem runner_nonzero_cex :
    ((-1 : Int) ≠ 0) ∧
    run_git_cmd "/work" "status" ⟨-1, "out", "err"⟩ = Except.ok "out" ∧
    run_heroku_cmd "myapp" "ps" ⟨-1, "out", "err"⟩ = Except.ok "out" :=
  ⟨by decide, rfl, rfl⟩

/-- C2 (amended): `run_git_cmd` and `run_cmd` raise exactly when the exit
status is strictly positive; the error message contains the full attempted
command and the captured stderr; a status `≤ 0` returns stdout unchanged
regardless of stderr. -/
theorem runner_error_iff_positive (work_dir command application hcommand : String)
    (r s : ProcessResult) :
    (0 < r.status_code →
      ∃ msg, run_git_cmd work_dir command r = Except.error msg ∧
        containsStr msg (gitCmdPreamble work_dir ++ command) ∧
        containsStr msg r.std_err) ∧
    (r.status_code ≤ 0 → run_git_cmd work_dir command r = Except.ok r.std_out) ∧
    (0 < s.status_code →
      ∃ msg, run_heroku_cmd application hcommand s = Except.error msg ∧
        containsStr msg ("heroku " ++ hcommand ++ " --app " ++ application) ∧
        containsStr msg s.std_err) ∧
    (s.status_code ≤ 0 → run_heroku_cmd application hcommand s = Except.ok s.std_out) := by
  refine ⟨fun h => ?_, fun h => ?_, fun h => ?_, fun h => ?_⟩
  · refine ⟨"Error running git command \x27" ++ (gitCmdPreamble work_dir ++ command) ++
        "\x27: " ++ r.std_err, by simp [run_git_cmd, h], ?_, ?_⟩
    · exact ⟨"Error running git command \x27", "\x27: " ++ r.std_err,
        by simp [String.append_assoc]⟩
    · exact ⟨"Error running git command \x27" ++ (gitCmdPreamble work_dir ++ command) ++ "\x27: ",
        "", by simp [String.append_assoc]⟩
  · simp [run_git_cmd, show ¬ (0 < r.status_code) by omega]
  · refine ⟨"Error running Heroku command \x27" ++ ("heroku " ++ hcommand ++ " --app " ++
        application) ++ "\x27: " ++ s.std_err, by simp [run_heroku_cmd, h], ?_, ?_⟩
    · exact ⟨"Error running Heroku command \x27", "\x27: " ++ s.std_err,
        by simp [String.append_assoc]⟩
    · exact ⟨"Error running Heroku command \x27" ++ ("heroku " ++ hcommand ++ " --app " ++ application) ++ "\x27: ",
        "", by simp [String.append_assoc]⟩
  · simp [run_heroku_cmd, show ¬ (0 < s.status_code) by omega]

/-- C2 (witness): the amended theorem at concrete process results with
status 1 (failure) and 0 (success, stderr non-empty). -/
theorem runner_error_iff_positive_witness :
    (∃ msg, run_git_cmd "/work" "status" ⟨1, "out", "err"⟩ = Except.error msg ∧
      containsStr msg (gitCmdPreamble "/work" ++ "status") ∧ containsStr msg "err") ∧
    run_git_cmd "/work" "status" ⟨0, "out", "warning"⟩ = Except.ok "out" ∧
    (∃ msg, run_heroku_cmd "myapp" "ps" ⟨1, "o2", "e2"⟩ = Except.error msg ∧
      containsStr msg ("heroku " ++ "ps" ++ " --app " ++ "myapp") ∧ containsStr msg "e2") ∧
    run_heroku_cmd "myapp" "ps" ⟨0, "o2", "warning"⟩ = Except.ok "o2" :=
  ⟨(runner_error_iff_positive "/work" "status" "myapp" "ps" ⟨1, "out", "err"⟩ ⟨1, "o2", "e2"⟩).1
      (by decide),
   (runner_error_iff_positive "/work" "status" "myapp" "ps" ⟨0, "out", "warning"⟩ ⟨1, "o2", "e2"⟩).2.1
      (by decide),
   (runner_error_iff_positive "/work" "status" "myapp" "ps" ⟨1, "out", "err"⟩ ⟨1, "o2", "e2"⟩).2.2.1
      (by decide),
   (runner_error_iff_positive "/work" "status" "myapp" "ps" ⟨1, "out", "err"⟩ ⟨0, "o2", "warning"⟩).2.2.2
      (by decide)⟩

/-- C6 (counterexample): the claim says `apply_tag` builds
`tag -a {tag} -m '{message}' {commit}` with single spaces between tokens,
but the source format string has two spaces between `-m` and the quoted
message. -/
theorem apply_tag_spacing_cex :
    apply_tag_command "9f8e7d6" "v1.0" "release msg" =
      "tag -a v1.0 -m  \x27release msg\x27 9f8e7d6" ∧
    apply_tag_command "9f8e7d6" "v1.0" "release msg" ≠
      "tag -a v1.0 -m \x27release msg\x27 9f8e7d6" :=
  ⟨rfl, by decide⟩

/-- C6 (amended): for every commit, tag and message, `apply_tag` builds and
runs exactly `tag -a {tag} -m  '{message}' {commit}` (two spaces between
`-m` and the opening quote, single spaces elsewhere), with the message
embedded verbatim and unescaped between the quotes. -/
theorem apply_tag_exact_command (work_dir c tag message : String) (r : ProcessResult) :
    apply_tag_command c tag message =
      "tag -a " ++ tag ++ " -m  \x27" ++ message ++ "\x27 " ++ c ∧
    containsStr (apply_tag_command c tag message) message ∧
    apply_tag work_dir c tag message r =
      (run_git_cmd work_dir ("tag -a " ++ tag ++ " -m  \x27" ++ message ++ "\x27 " ++ c) r).map
        (fun _ => ()) :=
  ⟨rfl,
   ⟨"tag -a " ++ tag ++ " -m  \x27", "\x27 " ++ c, by
      simp [apply_tag_command, String.append_assoc]⟩,
   rfl⟩

/-- C6 (witness): the amended theorem at a message containing a single
quote, showing it is embedded unescaped. -/
theorem apply_tag_exact_command_witness :
    apply_tag_command "9f8e7d6" "v1.0" "it\x27s done" =
      "tag -a v1.0 -m  \x27it\x27s done\x27 9f8e7d6" ∧
    containsStr (apply_tag_command "9f8e7d6" "v1.0" "it\x27s done") "it\x27s done" :=
  ⟨((apply_tag_exact_command "/work" "9f8e7d6" "v1.0" "it\x27s done" ⟨0, "", ""⟩).1).trans rfl,
   (apply_tag_exact_command "/work" "9f8e7d6" "v1.0" "it\x27s done" ⟨0, "", ""⟩).2.1⟩

/-- C7: `get_editor` returns the git-config value whenever it is non-empty
(git config takes precedence over a configured settings editor); an empty
git-config value falls back to the settings value; when the git value is
empty and no settings editor exists it raises. -/
theorem get_editor_precedence (g : String) (s : Option String) :
    (g ≠ "" → get_editor g s = Except.ok g) ∧
    (g = "" → ∀ v, s = some v → get_editor g s = Except.ok v) ∧
    (g = "" → s = none → ∃ msg, get_editor g s = Except.error msg) := by
  refine ⟨fun h => ?_, fun h v hv => ?_, fun h hn => ?_⟩
  · simp [get_editor, h]
  · subst hv; simp [get_editor, h]
  · subst hn
    exact ⟨"No editor configured in git config, $EDITOR or $VISUAL.", by simp [get_editor, h]⟩

/-- C7 (witness): the precedence theorem at concrete editor values. -/
theorem get_editor_precedence_witness :
    get_editor "vim" (some "emacs") = Except.ok "vim" ∧
    get_editor "" (some "emacs") = Except.ok "emacs" ∧
    ∃ msg, get_editor "" (none : Option String) = Except.error msg :=
  ⟨(get_editor_precedence "vim" (some "emacs")).1 (by decide),
   (get_editor_precedence "" (some "emacs")).2.1 rfl "emacs" rfl,
   (get_editor_precedence "" none).2.2 rfl rfl⟩

/-- C9: the two matching rules differ — the description
`"Deployed abc1234"` is skipped by `get_latest_deployment` (its first word
is not exactly `"Promote"`/`"Deploy"`), yet the `commit` accessor treats it
as a `"Deploy"` description by prefix and returns the token `"abc1234"`
rather than `"invalid"`. -/
theorem skip_vs_parse_mismatch :
    isDeployMatch ⟨some "Deployed abc1234"⟩ = false ∧
    get_latest_deployment [⟨some "Deployed abc1234"⟩] =
      (["Ignoring release: Deployed abc1234"], none) ∧
    pyStartsWith "Deployed abc1234" "Deploy" = true ∧
    commit "Deployed abc1234" = some "abc1234" ∧
    ("abc1234" : String) ≠ "invalid" :=
  ⟨rfl, rfl, rfl, rfl, by decide⟩

/-- C10: on a successful process, `get_current_branch` returns the captured
stdout verbatim (any trailing newline included), while `get_branch_head`
truncates the stdout to its first 7 characters. -/
theorem branch_verbatim_vs_truncated (work_dir branch : String) (r : ProcessResult)
    (h : r.status_code ≤ 0) :
    get_current_branch work_dir r = Except.ok r.std_out ∧
    get_branch_head work_dir branch r = Except.ok (r.std_out.take 7) := by
  have hc : ¬ (r.status_code > 0) := by omega
  constructor
  · simp [get_current_branch, run_git_cmd, hc]
  · simp [get_branch_head, run_git_cmd, hc, Except.map]

/-- C10 (witness): with stdout `"master\n"` the branch name keeps its
newline; a 40-character hash output is cut to its first 7 characters. -/
theorem branch_verbatim_vs_truncated_witness :
    get_current_branch "/work" ⟨0, "master\n", ""⟩ = Except.ok "master\n" ∧
    get_branch_head "/work" "master" ⟨0, "75c70c5abcdef0123456789\n", ""⟩ =
      Except.ok "75c70c5" :=
  ⟨(branch_verbatim_vs_truncated "/work" "master" ⟨0, "master\n", ""⟩ (by decide)).1,
   ((branch_verbatim_vs_truncated "/work" "master" ⟨0, "75c70c5abcdef0123456789\n", ""⟩
      (by decide)).2).trans (by rfl)⟩

/-- C4: `get_latest_deployment` scans the fetched releases in order and
returns the first entry whose description's first space-separated word is
exactly `"Promote"` or `"Deploy"`, echoing one diagnostic per skipped
entry; when no entry matches it raises (modelled by `none`) after echoing
a diagnostic for every entry. -/
theorem get_latest_deployment_scan (rels : List RawRelease) :
    ((∀ r ∈ rels, isDeployMatch r = false) →
      get_latest_deployment rels = (rels.map ignoreMsg, none)) ∧
    (∀ pre r post, rels = pre ++ r :: post →
      (∀ p ∈ pre, isDeployMatch p = false) → isDeployMatch r = true →
      get_latest_deployment rels = (pre.map ignoreMsg, some r)) := by
  constructor
  · intro h
    induction rels with
    | nil => rfl
    | cons a rest ih =>
      have ha := h a (List.mem_cons_self a rest)
      have hrest := ih (fun x hx => h x (List.mem_cons_of_mem a hx))
      simp [get_latest_deployment, ha, hrest]
  · intro pre r post hre hpre hr
    subst hre
    induction pre with
    | nil => simp [get_latest_deployment, hr]
    | cons a pres ih =>
      have ha := hpre a (List.mem_cons_self a pres)
      have hrest := ih (fun x hx => hpre x (List.mem_cons_of_mem a hx))
      simp [get_latest_deployment, ha, hrest]

/-- C4 (witness): the scan theorem at the spec's example list — the
entries `"Rollback"` and `"Created"` are skipped with diagnostics and the
third entry `"Deploy abc1234"` is returned. -/
theorem get_latest_deployment_scan_witness :
    get_latest_deployment
        [⟨some "Rollback"⟩, ⟨some "Created"⟩, ⟨some "Deploy abc1234"⟩] =
      (["Ignoring release: Rollback", "Ignoring release: Created"],
        some ⟨some "Deploy abc1234"⟩) :=
  ((get_latest_deployment_scan
      [⟨some "Rollback"⟩, ⟨some "Created"⟩, ⟨some "Deploy abc1234"⟩]).2
    [⟨some "Rollback"⟩, ⟨some "Created"⟩] ⟨some "Deploy abc1234"⟩ [] rfl
    (by decide) (by decide)).trans rfl

/-- C8: any release returned by `get_latest_deployment` has a description
whose first space-separated word is exactly `"Promote"` or `"Deploy"`, so
the `commit` accessor takes one of the two token branches on it — the
sentinel `"invalid"` else-branch is unreachable for such a release. -/
theorem latest_deployment_commit_branch (rels : List RawRelease) (log : List String)
    (r : RawRelease) (h : get_latest_deployment rels = (log, some r)) :
    ∃ d, r.description = some d ∧ (firstWord d = "Promote" ∨ firstWord d = "Deploy") ∧
      (commit d = (pySplitWords d)[3]? ∨ commit d = (pySplitWords d)[1]?) := by
  have hm : isDeployMatch r = true := by
    induction rels generalizing log with
    | nil => simp [get_latest_deployment] at h
    | cons a rest ih =>
      by_cases ha : isDeployMatch a = true
      · have heq : get_latest_deployment (a :: rest) = ([], some a) := by
          simp [get_latest_deployment, ha]
        rw [heq] at h
        have h2 := congrArg Prod.snd h
        simp only [Option.some.injEq] at h2
        subst h2
        exact ha
      · have hb : isDeployMatch a = false := by
          cases hv : isDeployMatch a <;> simp_all
        have heq : get_latest_deployment (a :: rest) =
            (ignoreMsg a :: (get_latest_deployment rest).1,
              (get_latest_deployment rest).2) := by
          simp [get_latest_deployment, hb]
        rw [heq] at h
        have h2 := congrArg Prod.snd h
        simp only at h2
        exact ih (get_latest_deployment rest).1 (by rw [← h2])
  obtain ⟨d, hd, hw⟩ := isDeployMatch_descr r hm
  refine ⟨d, hd, hw, ?_⟩
  rcases hw with hw | hw
  · left
    have hp := firstWord_isPrefix d "Promote" hw
    simp [commit, hp]
  · by_cases hp : pyStartsWith d "Promote" = true
    · left
      simp [commit, hp]
    · right
      have hb : pyStartsWith d "Promote" = false := by
        cases hv : pyStartsWith d "Promote" <;> simp_all
      have hdep := firstWord_isPrefix d "Deploy" hw
      simp [commit, hb, hdep]

/-- C8 (witness): the invariant applied to a one-element release list whose
entry is a genuine deployment. -/
theorem latest_deployment_commit_branch_witness :
    ∃ d, (RawRelease.mk (some "Deploy 75c70c5")).description = some d ∧
      (firstWord d = "Promote" ∨ firstWord d = "Deploy") ∧
      (commit d = (pySplitWords d)[3]? ∨ commit d = (pySplitWords d)[1]?) :=
  latest_deployment_commit_branch [⟨some "Deploy 75c70c5"⟩] []
    ⟨some "Deploy 75c70c5"⟩ rfl

/-- C5: for every raw `diff --name-only` output (blank edge lines
included), `get_files` returns a lexicographically sorted list of the
non-empty output lines, containing no empty string; empty diff output
yields the empty list rather than an error. -/
theorem get_files_sorted_no_empty (raw : String) :
    List.Pairwise (fun a b : String => a ≤ b) (get_files_parse raw) ∧
    "" ∉ get_files_parse raw ∧
    List.Perm (get_files_parse raw)
      ((((pySplit '\n' (pyStrip raw.data)).map String.mk).filter (fun f => f ≠ ""))) ∧
    get_files_parse "" = [] := by
  refine ⟨?_, ?_, ?_, ?_⟩
  case refine_4 =>
    have h1 : (pySplit '\n' (pyStrip "".data)).map String.mk = [""] := rfl
    rw [get_files_parse, h1, List.mergeSort_singleton]
    rfl
  · have hs : List.Pairwise (fun a b : String => strLeb a b = true)
        (((pySplit '\n' (pyStrip raw.data)).map String.mk).mergeSort strLeb) := by
      apply List.sorted_mergeSort
      · intro a b c hab hbc
        simp only [strLeb, decide_eq_true_eq] at hab hbc ⊢
        exact le_trans hab hbc
      · intro a b
        rcases le_total a b with h | h <;> simp [strLeb, h]
    have hf := hs.filter (fun f => decide (f ≠ ""))
    exact hf.imp (fun h => by simpa [strLeb] using h)
  · intro hmem
    rw [get_files_parse, List.mem_filter] at hmem
    simp at hmem
  · exact (List.mergeSort_perm ((pySplit '\n' (pyStrip raw.data)).map String.mk)
      strLeb).filter (fun f => decide (f ≠ ""))

theorem pySplit_append_sep (sep : Char) (a b : List Char) (ha : sep ∉ a) :
    pySplit sep (a ++ sep :: b) = a :: pySplit sep b := by
  induction a with
  | nil =>
    simp only [List.nil_append, pySplit]
    cases hs : pySplit sep b with
    | nil => exact absurd hs (pySplit_ne_nil sep b)
    | cons g gs => simp [hs]
  | cons c a2 ih =>
    have hc : c ≠ sep := fun h => ha (h ▸ List.mem_cons_self c a2)
    have ha2 : sep ∉ a2 := fun h => ha (List.mem_cons_of_mem c h)
    have hb : (c == sep) = false := by simp [hc]
    simp only [List.cons_append, pySplit]
    cases hs : pySplit sep (a2 ++ sep :: b) with
    | nil => exact absurd hs (pySplit_ne_nil sep (a2 ++ sep :: b))
    | cons g gs =>
      have hs2 := hs
      rw [ih ha2] at hs2
      injection hs2 with h1 h2
      dsimp only
      simp [hb, ← h1, ← h2]

theorem pySplit_no_sep (sep : Char) (l : List Char) (h : sep ∉ l) :
    pySplit sep l = [l] := by
  induction l with
  | nil => rfl
  | cons c rest ih =>
    have hc : c ≠ sep := fun hq => h (hq ▸ List.mem_cons_self c rest)
    have hr : sep ∉ rest := fun hq => h (List.mem_cons_of_mem c hq)
    have hb : (c == sep) = false := by simp [hc]
    simp only [pySplit, ih hr]
    simp [hb]

theorem pySplit_joinLines (sep : Char) (ls : List (List Char)) (hne : ls ≠ [])
    (h : ∀ l ∈ ls, sep ∉ l) : pySplit sep (joinLines sep ls) = ls := by
  induction ls with
  | nil => exact absurd rfl hne
  | cons a rest ih =>
    cases rest with
    | nil => simpa [joinLines] using pySplit_no_sep sep a (h a (List.mem_cons_self a []))
    | cons b rest2 =>
      have hrec := ih (by simp) (fun x hx => h x (List.mem_cons_of_mem a hx))
      have hj : joinLines sep (a :: b :: rest2) = a ++ sep :: joinLines sep (b :: rest2) := rfl
      rw [hj, pySplit_append_sep sep a _ (h a (List.mem_cons_self a (b :: rest2))), hrec]

theorem pyLStrip_eq_self (l : List Char) (h : ∀ c, l.head? = some c → pyWS c = false) :
    pyLStrip l = l := by
  cases l with
  | nil => rfl
  | cons c rest =>
    have hc := h c rfl
    simp [pyLStrip, List.dropWhile_cons, hc]

theorem pyRStrip_append_nl (l : List Char) : pyRStrip (l ++ ['\n']) = pyRStrip l := by
  have hnl : pyWS '\n' = true := rfl
  simp [pyRStrip, List.reverse_append, List.dropWhile_cons, hnl]

theorem pyRStrip_eq_self (l : List Char) (h : ∀ c, l.getLast? = some c → pyWS c = false) :
    pyRStrip l = l := by
  unfold pyRStrip
  have hd : l.reverse.dropWhile pyWS = l.reverse := by
    cases hr : l.reverse with
    | nil => rfl
    | cons c rest =>
      have hc : l.getLast? = some c := by
        rw [List.getLast?_eq_head?_reverse, hr]
        rfl
      simp [List.dropWhile_cons, h c hc]
  rw [hd, List.reverse_reverse]

theorem joinLines_ne_nil (sep : Char) (ls : List (List Char))
    (h : ls.getLastD [] ≠ []) : joinLines sep ls ≠ [] := by
  cases ls with
  | nil => simp at h
  | cons a rest =>
    cases rest with
    | nil => simpa [joinLines] using h
    | cons b rest2 =>
      have hj : joinLines sep (a :: b :: rest2) = a ++ sep :: joinLines sep (b :: rest2) := rfl
      rw [hj]
      simp

theorem joinLines_getLast? (sep : Char) (ls : List (List Char))
    (h : ls.getLastD [] ≠ []) :
    (joinLines sep ls).getLast? = (ls.getLastD []).getLast? := by
  induction ls with
  | nil => simp at h
  | cons a rest ih =>
    cases rest with
    | nil => simp [joinLines]
    | cons b rest2 =>
      have h2 : (a :: b :: rest2).getLastD [] = (b :: rest2).getLastD [] := by
        simp [List.getLastD_cons]
      rw [h2] at h ⊢
      have hnn := joinLines_ne_nil sep (b :: rest2) h
      have hrec := ih h
      have hj : joinLines sep (a :: b :: rest2) = a ++ sep :: joinLines sep (b :: rest2) := rfl
      obtain ⟨c, js, hcj⟩ := List.exists_cons_of_ne_nil hnn
      obtain ⟨v, hv⟩ := Option.isSome_iff_exists.mp (List.getLast?_isSome.mpr (by simp) :
        (c :: js).getLast?.isSome)
      rw [hj, List.getLast?_append, hcj]
      simp only [List.getLast?_cons_cons]
      rw [hv, Option.or_some, ← hrec, hcj, hv]

/-- C3: for well-formed `git log --oneline` output — well-formed lines
joined by newlines, possibly with interior empty lines, ending in a final
newline — `get_commits` returns exactly one pair per non-empty line, in
the same order, the pair being the line's first 7 characters and the line
with its first 8 characters removed; empty lines are dropped and every
returned hash has exactly 7 characters. -/
theorem get_commits_lines (entries : List (List Char))
    (hwf : ∀ l ∈ entries, l = [] ∨ wfLine l = true)
    (hfirst : wfLine (entries.headD []) = true)
    (hlast : wfLine (entries.getLastD []) = true) :
    get_commits_parse (String.mk (joinLines '\n' entries ++ ['\n'])) =
      (entries.filter (fun l => !l.isEmpty)).map
        (fun l => (String.mk (l.take 7), String.mk (l.drop 8))) ∧
    (get_commits_parse (String.mk (joinLines '\n' entries ++ ['\n']))).length =
      (entries.filter (fun l => !l.isEmpty)).length ∧
    ∀ p ∈ get_commits_parse (String.mk (joinLines '\n' entries ++ ['\n'])),
      (p.1).length = 7 := by
  cases entries with
  | nil => simp [wfLine, pyWS] at hfirst
  | cons a rest =>
    rw [List.headD_cons] at hfirst
    have hfa := hfirst
    simp only [wfLine, Bool.and_eq_true, decide_eq_true_eq, Bool.not_eq_true'] at hfa
    obtain ⟨⟨⟨ha8, hanl⟩, hahead⟩, -⟩ := hfa
    have hane : a ≠ [] := by
      intro h
      rw [h] at ha8
      simp at ha8
    have hlastD := hlast
    simp only [wfLine, Bool.and_eq_true, decide_eq_true_eq, Bool.not_eq_true'] at hlastD
    obtain ⟨⟨⟨hl8, -⟩, -⟩, hllast⟩ := hlastD
    have hlne : (a :: rest).getLastD [] ≠ [] := by
      intro h
      rw [h] at hl8
      simp at hl8
    have hhead : (joinLines '\n' (a :: rest) ++ ['\n']).head? = a.head? := by
      cases rest with
      | nil =>
        show (a ++ ['\n']).head? = a.head?
        cases a with
        | nil => exact absurd rfl hane
        | cons x xs => rfl
      | cons b r2 =>
        show ((a ++ '\n' :: joinLines '\n' (b :: r2)) ++ ['\n']).head? = a.head?
        cases a with
        | nil => exact absurd rfl hane
        | cons x xs => rfl
    have hlstrip : pyLStrip (joinLines '\n' (a :: rest) ++ ['\n']) =
        joinLines '\n' (a :: rest) ++ ['\n'] := by
      apply pyLStrip_eq_self
      intro c hcc
      rw [hhead] at hcc
      cases a with
      | nil => exact absurd rfl hane
      | cons x xs =>
        simp only [List.head?_cons, Option.some.injEq] at hcc
        subst hcc
        simpa using hahead
    have hrstrip : pyRStrip (joinLines '\n' (a :: rest) ++ ['\n']) =
        joinLines '\n' (a :: rest) := by
      rw [pyRStrip_append_nl]
      apply pyRStrip_eq_self
      intro c hcc
      rw [joinLines_getLast? '\n' (a :: rest) hlne] at hcc
      have hgd : ((a :: rest).getLastD []).getLastD ' ' = c := by
        rw [List.getLastD_eq_getLast?, hcc]
        rfl
      rw [← hgd]
      exact hllast
    have hstrip : pyStrip (joinLines '\n' (a :: rest) ++ ['\n']) =
        joinLines '\n' (a :: rest) := by
      rw [pyStrip, hlstrip, hrstrip]
    have hsplit : pySplit '\n' (joinLines '\n' (a :: rest)) = a :: rest := by
      apply pySplit_joinLines '\n' (a :: rest) (by simp)
      intro l hl
      rcases hwf l hl with h | h
      · subst h
        simp
      · simp only [wfLine, Bool.and_eq_true, decide_eq_true_eq] at h
        exact h.1.1.2
    have hdata : (String.mk (joinLines '\n' (a :: rest) ++ ['\n'])).data =
        joinLines '\n' (a :: rest) ++ ['\n'] := rfl
    have hmain : get_commits_parse (String.mk (joinLines '\n' (a :: rest) ++ ['\n'])) =
        ((a :: rest).filter (fun l => !l.isEmpty)).map
          (fun l => (String.mk (l.take 7), String.mk (l.drop 8))) := by
      rw [get_commits_parse, hdata, hstrip, hsplit]
    refine ⟨hmain, by rw [hmain, List.length_map], ?_⟩
    intro p hp
    rw [hmain] at hp
    obtain ⟨l, hl, hpe⟩ := List.mem_map.mp hp
    obtain ⟨hle, hlne2⟩ := List.mem_filter.mp hl
    have hlw : wfLine l = true := by
      rcases hwf l hle with h | h
      · subst h
        simp at hlne2
      · exact h
    have hlen : 8 ≤ l.length := by
      simp only [wfLine, Bool.and_eq_true, decide_eq_true_eq] at hlw
      exact hlw.1.1.1
    rw [← hpe]
    simp only [String.length_mk, List.length_take]
    omega

/-- C3 (witness): the parsing theorem applied to the docstring's example
two-line log output. -/
theorem get_commits_lines_witness :
    get_commits_parse (String.mk (joinLines '\n'
        ["81a5ea8 Fix for failing tests.".data,
         "62d49e9 Refactoring of conversations.".data] ++ ['\n'])) =
      [("81a5ea8", "Fix for failing tests."),
       ("62d49e9", "Refactoring of conversations.")] :=
  ((get_commits_lines
      ["81a5ea8 Fix for failing tests.".data,
       "62d49e9 Refactoring of conversations.".data]
      (by decide) (by decide) (by decide)).1).trans (by decide)
